import Mathlib

/-!
Verification of the minesweeper board engine and game session logic.

The definitions below are a shallow embedding of the TypeScript source:
`board.ts` (initBoard, attachMines, getNeighbours, updateBoard,
findUnrevealed), `utils.ts` (create2dArray) and the game-logic portion of
the `MineSweeper` class (revealCell, toggleFlag, revealMines, endGame,
startGame).  Boards are lists of rows; machine randomness
(`Math.random`) is modelled by an explicit `rand : Nat → Nat` parameter,
reduced modulo the required bound exactly where the source multiplies
`Math.random()` by that bound.
-/

/-- Cell values of the board: `'E'`, `'M'`, `'RE'`, `'RM'` and the digit
strings `'1'`..`'8'` (represented with a numeric payload). -/
inductive CellValue where
  | E : CellValue
  | M : CellValue
  | RE : CellValue
  | RM : CellValue
  | digit : Nat → CellValue
deriving DecidableEq, Repr

/-- A board is a list of rows, as in the source's `CellValue[][]`. -/
abbrev Board := List (List CellValue)

/-- 2D read with a default, mirroring JS indexing `g[r][c]`. -/
def getG {α : Type} (g : List (List α)) (r c : Nat) (d : α) : α :=
  (g.getD r []).getD c d

/-- 2D write, mirroring JS assignment `g[r][c] = v`. -/
def setG {α : Type} (g : List (List α)) (r c : Nat) (v : α) : List (List α) :=
  g.set r ((g.getD r []).set c v)

/-- Read a board cell (default `'E'`; all verified accesses are in range). -/
def getCell (b : Board) (r c : Nat) : CellValue := getG b r c CellValue.E

/-- Write a board cell. -/
def setCell (b : Board) (r c : Nat) (v : CellValue) : Board := setG b r c v

/-- A grid has `nR` rows each of length `nC`. -/
def Rect {α : Type} (nR nC : Nat) (g : List (List α)) : Prop :=
  g.length = nR ∧ ∀ row ∈ g, row.length = nC

/-- `create2dArray` from `utils.ts`: a `size × size` grid filled with `value`. -/
def create2dArray {α : Type} (value : α) (size : Nat) : List (List α) :=
  List.replicate size (List.replicate size value)

/-- Rectangular grid of the given dimensions filled with `value` (the
`Array.from({length: numRows}, () => Array(numCols).fill(false))` idiom). -/
def mkGrid {α : Type} (value : α) (rows cols : Nat) : List (List α) :=
  List.replicate rows (List.replicate cols value)

/-- `initBoard` from `board.ts`: all cells start as `'E'`. -/
def initBoard (size : Nat) : Board := create2dArray CellValue.E size

/-- The 8-directional movement deltas of `board.ts`, in source order. -/
def deltas : List (Int × Int) :=
  [(0, 1), (-1, 1), (-1, 0), (-1, -1), (0, -1), (1, -1), (1, 0), (1, 1)]

/-- `getNeighbours` from `board.ts`: in-range 8-directional neighbours. -/
def getNeighbours (numRows numCols row col : Nat) : List (Nat × Nat) :=
  deltas.filterMap (fun d =>
    let nr : Int := (row : Int) + d.1
    let nc : Int := (col : Int) + d.2
    if 0 ≤ nr ∧ nr < (numRows : Int) ∧ 0 ≤ nc ∧ nc < (numCols : Int) then
      some (nr.toNat, nc.toNat)
    else none)

/-- Number of mines among the 8-directional neighbours of `(row, col)`
(the `mines` counter inside `markCell` of `updateBoard`). -/
def adjMines (numRows numCols : Nat) (b : Board) (row col : Nat) : Nat :=
  ((getNeighbours numRows numCols row col).filter
    (fun p => decide (getCell b p.1 p.2 = CellValue.M))).length

/-- The recursive `markCell` closure of `updateBoard`, with explicit fuel.
Each recursive call happens only after the current `'E'` cell has been set
to `'RE'`, so a fuel of (area + 1) can never be exhausted. -/
def markCell (numRows numCols : Nat) : Nat → Board → Nat → Nat → Board
  | 0, b, _, _ => b
  | fuel + 1, b, row, col =>
    if getCell b row col = CellValue.E then
      let nbs := getNeighbours numRows numCols row col
      let mines := adjMines numRows numCols b row col
      if mines = 0 then
        nbs.foldl (fun acc p => markCell numRows numCols fuel acc p.1 p.2)
          (setCell b row col CellValue.RE)
      else setCell b row col (CellValue.digit mines)
    else b

/-- `updateBoard` from `board.ts`: reveal the clicked cell, flood-filling
through zero-adjacency regions. -/
def updateBoard (board : Board) (click : Nat × Nat) : Board :=
  let numRows := board.length
  let numCols := (board.getD 0 []).length
  markCell numRows numCols (numRows * numCols + 1) board click.1 click.2

/-- The destructuring swap `[l[i], l[j]] = [l[j], l[i]]` of the
Fisher-Yates loop (both values are read before either write). -/
def swapL (l : List Nat) (i j : Nat) : List Nat :=
  let a := l.getD i 0
  let b := l.getD j 0
  (l.set i b).set j a

/-- The Fisher-Yates loop of `attachMines`, counting `i` down to 1; the
random draw `Math.floor(Math.random() * (i + 1))` is modelled by
`rand i % (i + 1)`, which ranges over exactly the same values. -/
def fyLoop (rand : Nat → Nat) : List Nat → Nat → List Nat
  | l, 0 => l
  | l, i + 1 => fyLoop rand (swapL l (i + 1) (rand (i + 1) % (i + 2))) i

/-- Fisher-Yates shuffle over a list (steps 1-2 of `attachMines`). -/
def fyShuffle (rand : Nat → Nat) (l : List Nat) : List Nat :=
  fyLoop rand l (l.length - 1)

/-- Step 3 of `attachMines`: walk the shuffled linear indices, placing a
mine at each, skipping the ignored position, until `need` mines are
placed or the indices run out. -/
def placeMines (size : Nat) (ignore : Nat × Nat) : List Nat → Nat → Board → Board
  | [], _, b => b
  | idx :: rest, need, b =>
    if need = 0 then b
    else
      let row := idx / size
      let col := idx % size
      if row = ignore.1 ∧ col = ignore.2 then placeMines size ignore rest need b
      else placeMines size ignore rest (need - 1) (setCell b row col CellValue.M)

/-- `attachMines` from `board.ts`: place `minesCount` mines (clamped to
`size² − 1`) at shuffled positions, never on `ignore`. -/
def attachMines (rand : Nat → Nat) (board : Board) (minesCount : Nat)
    (ignore : Nat × Nat) : Board :=
  if minesCount = 0 then board
  else
    let size := board.length
    let totalCells := size ^ 2
    let maxPossibleMines := totalCells - 1
    let actualMinesCount := min minesCount maxPossibleMines
    let indices := fyShuffle rand (List.range totalCells)
    placeMines size ignore indices actualMinesCount board

/-- Number of `'M'` cells on a board. -/
def countMines (b : Board) : Nat := (b.map (fun row => row.count CellValue.M)).sum

/-- Relation between the board at entry to `updateBoard` and any
intermediate board of the flood fill: non-`'E'` cells are untouched,
`'E'` cells are still hidden, revealed as `'RE'`, or revealed as the
digit of their (original, hence also current) adjacent-mine count. -/
def RevealInv (nR nC : Nat) (b0 b : Board) : Prop :=
  ∀ r c : Nat,
    (getCell b0 r c ≠ CellValue.E → getCell b r c = getCell b0 r c) ∧
    (getCell b0 r c = CellValue.E →
      getCell b r c = CellValue.E ∨ getCell b r c = CellValue.RE ∨
      (getCell b r c = CellValue.digit (adjMines nR nC b0 r c) ∧
        1 ≤ adjMines nR nC b0 r c))

/-- The game-logic state of the `MineSweeper` class (DOM fields omitted).
`outcome` records the `victory` argument of the unique `endGame` call, if
the game has ended: `some true` = won, `some false` = lost. -/
structure GameState where
  size : Nat
  minesCount : Nat
  board : Board
  flagPositions : List (List Bool)
  remainingFlags : Int
  gameEnded : Bool
  gameStarted : Bool
  firstClick : Bool
  outcome : Option Bool
deriving Repr, DecidableEq

/-- `startGame` (the timer itself is presentation-layer). -/
def startGame (s : GameState) : GameState := { s with gameStarted := true }

/-- `endGame`: marks the session ended; `victory` is recorded in `outcome`. -/
def endGame (s : GameState) (victory : Bool) : GameState :=
  { s with gameEnded := true, outcome := some victory }

/-- `toggleFlag` of the `MineSweeper` class (DOM rendering omitted). -/
def toggleFlag (s : GameState) (row col : Nat) : GameState :=
  if s.gameEnded then s
  else
    let s1 := if s.gameStarted then s else startGame s
    let cell := getCell s1.board row col
    if cell = CellValue.E ∨ cell = CellValue.M then
      let hadFlag := getG s1.flagPositions row col false
      { s1 with
        flagPositions := setG s1.flagPositions row col (!hadFlag),
        remainingFlags := if hadFlag then s1.remainingFlags + 1 else s1.remainingFlags - 1 }
    else s1

/-- Row-major list of all `(row, col)` with both components `< n`,
matching the nested `for` loops of the source. -/
def allPositions (n : Nat) : List (Nat × Nat) :=
  (List.range n).flatMap (fun r => (List.range n).map (fun c => (r, c)))

/-- One iteration of the `revealMines` loop body for `asFlags = true`:
an unflagged `'M'`/`'RM'` cell is toggled to flagged. -/
def revealMinesStep (s : GameState) (p : Nat × Nat) : GameState :=
  let val := getCell s.board p.1 p.2
  if ¬ getG s.flagPositions p.1 p.2 false ∧
      (val = CellValue.M ∨ val = CellValue.RM) then
    toggleFlag s p.1 p.2
  else s

/-- `revealMines` of the `MineSweeper` class: with `asFlags` it flags every
unflagged mine; without, it only renders mines (no state change). -/
def revealMines (s : GameState) (asFlags : Bool) : GameState :=
  if asFlags then (allPositions s.board.length).foldl revealMinesStep s else s

/-- One iteration of the render-diff loop of `revealCell`: a changed cell
that carried a flag gets its flag toggled off (`this.board` is still the
pre-reveal board at this point in the source). -/
def diffStep (updated : Board) (s : GameState) (p : Nat × Nat) : GameState :=
  if getCell updated p.1 p.2 ≠ getCell s.board p.1 p.2 ∧
      getG s.flagPositions p.1 p.2 false then
    toggleFlag s p.1 p.2
  else s

/-- `revealCell` of the `MineSweeper` class (announcements, rendering and
focus management omitted; `continueGameAfterReveal` changes no game state). -/
def revealCell (rand : Nat → Nat) (s : GameState) (row col : Nat) : GameState :=
  if s.gameEnded then s
  else
    let s1 := if s.gameStarted then s else startGame s
    let s2 :=
      if s1.firstClick then
        { s1 with board := attachMines rand s1.board s1.minesCount (row, col),
                  firstClick := false }
      else s1
    if getG s2.flagPositions row col false then s2
    else if getCell s2.board row col = CellValue.M then
      let s3 := { s2 with board := setCell s2.board row col CellValue.RM }
      let s4 := endGame s3 false
      revealMines s4 false
    else
      let updated := updateBoard s2.board (row, col)
      let hasUnopened := (allPositions s2.size).any
        (fun p => decide (getCell updated p.1 p.2 = CellValue.E))
      let s5 := (allPositions s2.size).foldl (diffStep updated) s2
      let s6 := { s5 with board := updated }
      if hasUnopened then s6
      else endGame (revealMines s6 true) true

/-- A fresh session as built by the constructor / `resetGame`. -/
def initialState (size minesCount : Nat) : GameState :=
  { size := size
    minesCount := minesCount
    board := initBoard size
    flagPositions := create2dArray false size
    remainingFlags := (minesCount : Int)
    gameEnded := false
    gameStarted := false
    firstClick := true
    outcome := none }

/-- The inner `for`-loop of `findUnrevealed`: scan the neighbours of the
dequeued cell; an unvisited unrevealed (`'E'`/`'M'`) neighbour is returned,
other unvisited neighbours are marked visited and enqueued. -/
def processNeighbours (board : Board) :
    List (List Bool) → List (Nat × Nat) → List (Nat × Nat) →
    Sum (Nat × Nat) (List (List Bool) × List (Nat × Nat))
  | vis, queue, [] => Sum.inr (vis, queue)
  | vis, queue, nb :: nbs =>
    if getG vis nb.1 nb.2 false then processNeighbours board vis queue nbs
    else if getCell board nb.1 nb.2 = CellValue.E ∨
        getCell board nb.1 nb.2 = CellValue.M then
      Sum.inl nb
    else processNeighbours board (setG vis nb.1 nb.2 true) (queue ++ [nb]) nbs

/-- The `while (queue.length > 0)` loop of `findUnrevealed`, with explicit
fuel.  Each iteration removes one queue entry and enqueues only
freshly-visited cells, so `queue.length + countUnvisited` strictly
decreases and a fuel of (area + 1) can never be exhausted. -/
def bfsAux (numRows numCols : Nat) (board : Board) :
    Nat → List (List Bool) → List (Nat × Nat) → Option (Option (Nat × Nat))
  | 0, _, _ => none
  | _ + 1, _, [] => some none
  | fuel + 1, vis, cur :: rest =>
    match processNeighbours board vis rest
        (getNeighbours numRows numCols cur.1 cur.2) with
    | Sum.inl found => some (some found)
    | Sum.inr (vis2, queue2) => bfsAux numRows numCols board fuel vis2 queue2

/-- `findUnrevealed` from `board.ts`: BFS from the start position for any
unrevealed (`'E'`/`'M'`) cell, `none` when there is none. -/
def findUnrevealed (board : Board) (startPositions : Nat × Nat) : Option (Nat × Nat) :=
  let numRows := board.length
  let numCols := (board.getD 0 []).length
  let visited := setG (mkGrid false numRows numCols)
    startPositions.1 startPositions.2 true
  match bfsAux numRows numCols board (numRows * numCols + 1)
      visited [startPositions] with
  | some r => r
  | none => none

/-- Number of not-yet-visited entries of the visited grid. -/
def countUnvisited (vis : List (List Bool)) : Nat :=
  (vis.map (fun row => row.count false)).sum

/-- Reachability over the 8-directional adjacency graph of the grid. -/
inductive Reachable (numRows numCols : Nat) (start : Nat × Nat) : Nat × Nat → Prop where
  | refl : Reachable numRows numCols start start
  | step {p q : Nat × Nat} : Reachable numRows numCols start p →
      q ∈ getNeighbours numRows numCols p.1 p.2 → Reachable numRows numCols start q

section GridLemmas

variable {α : Type}

theorem getD_set_self (l : List α) (i : Nat) (v d : α) (h : i < l.length) :
    (l.set i v).getD i d = v := by
  induction l generalizing i with
  | nil => simp at h
  | cons x xs ih =>
    cases i with
    | zero => rfl
    | succ n => exact ih n (Nat.lt_of_succ_lt_succ h)

theorem getD_set_ne (l : List α) (i j : Nat) (v d : α) (h : i ≠ j) :
    (l.set i v).getD j d = l.getD j d := by
  induction l generalizing i j with
  | nil => simp [List.set]
  | cons x xs ih =>
    cases i with
    | zero =>
      cases j with
      | zero => exact absurd rfl h
      | succ m => rfl
    | succ n =>
      cases j with
      | zero => rfl
      | succ m => exact ih n m (fun hnm => h (by rw [hnm]))

theorem getD_replicate (n i : Nat) (a : α) : (List.replicate n a).getD i a = a := by
  induction n generalizing i with
  | zero => rfl
  | succ m ih =>
    cases i with
    | zero => rfl
    | succ k => exact ih k

theorem getD_replicate_lt (n i : Nat) (a d : α) (h : i < n) :
    (List.replicate n a).getD i d = a := by
  induction n generalizing i with
  | zero => omega
  | succ m ih =>
    cases i with
    | zero => rfl
    | succ k => exact ih k (Nat.lt_of_succ_lt_succ h)

theorem getD_mem_of_lt (l : List α) (i : Nat) (d : α) (h : i < l.length) :
    l.getD i d ∈ l := by
  induction l generalizing i with
  | nil => simp at h
  | cons x xs ih =>
    cases i with
    | zero => exact List.mem_cons_self x xs
    | succ n => exact List.mem_cons_of_mem x (ih n (Nat.lt_of_succ_lt_succ h))

theorem rect_row_len {nR nC : Nat} {g : List (List α)} (h : Rect nR nC g)
    {i : Nat} (hi : i < nR) : (g.getD i []).length = nC :=
  h.2 _ (getD_mem_of_lt g i [] (by rw [h.1]; exact hi))

theorem getG_setG_self {g : List (List α)} {nR nC : Nat} (h : Rect nR nC g)
    {r c : Nat} (hr : r < nR) (hc : c < nC) (v d : α) :
    getG (setG g r c v) r c d = v := by
  unfold getG setG
  rw [getD_set_self _ _ _ _ (by rw [h.1]; exact hr)]
  exact getD_set_self _ _ _ _ (by rw [rect_row_len h hr]; exact hc)

theorem getG_setG_ne {g : List (List α)} {r c r' c' : Nat}
    (hne : (r', c') ≠ (r, c)) (v d : α) :
    getG (setG g r c v) r' c' d = getG g r' c' d := by
  unfold getG setG
  by_cases hr : r' = r
  · subst hr
    have hc : c' ≠ c := fun hc => hne (by rw [hc])
    by_cases hlen : r' < g.length
    · rw [getD_set_self _ _ _ _ hlen, getD_set_ne _ _ _ _ _ (fun h => hc h.symm)]
    · have h1 : g.set r' ((g.getD r' []).set c v) = g := List.set_eq_of_length_le (by omega)
      rw [h1]
  · rw [getD_set_ne _ _ _ _ _ (fun h => hr h.symm)]

theorem getD_ge (l : List α) (i : Nat) (d : α) (h : l.length ≤ i) :
    l.getD i d = d := by
  induction l generalizing i with
  | nil => cases i <;> rfl
  | cons x xs ih =>
    cases i with
    | zero => simp at h
    | succ n => exact ih n (by simpa using h)

theorem rect_setG {nR nC : Nat} {g : List (List α)} (h : Rect nR nC g)
    (r c : Nat) (v : α) : Rect nR nC (setG g r c v) := by
  by_cases hlen : r < g.length
  · constructor
    · rw [setG, List.length_set, h.1]
    · intro row hrow
      unfold setG at hrow
      rcases List.mem_or_eq_of_mem_set hrow with h1 | h1
      · exact h.2 _ h1
      · subst h1
        rw [List.length_set]
        exact h.2 _ (getD_mem_of_lt g r [] hlen)
  · rw [setG, List.set_eq_of_length_le (by omega)]
    exact h

theorem rect_mkGrid (nR nC : Nat) (v : α) : Rect nR nC (mkGrid v nR nC) := by
  constructor
  · simp [mkGrid]
  · intro row hrow
    unfold mkGrid at hrow
    rw [List.eq_of_mem_replicate hrow]
    simp

theorem getG_mkGrid (nR nC r c : Nat) (v : α) : getG (mkGrid v nR nC) r c v = v := by
  unfold getG mkGrid
  by_cases hr : r < nR
  · rw [getD_replicate_lt _ _ _ _ hr, getD_replicate]
  · rw [getD_ge (List.replicate nR (List.replicate nC v)) r []
      (by simpa using Nat.le_of_not_lt hr)]
    cases c <;> rfl

end GridLemmas

theorem getCell_setCell_self {b : Board} {nR nC : Nat} (h : Rect nR nC b)
    {r c : Nat} (hr : r < nR) (hc : c < nC) (v : CellValue) :
    getCell (setCell b r c v) r c = v :=
  getG_setG_self h hr hc v CellValue.E

theorem getCell_setCell_ne {b : Board} {r c r' c' : Nat}
    (hne : (r', c') ≠ (r, c)) (v : CellValue) :
    getCell (setCell b r c v) r' c' = getCell b r' c' :=
  getG_setG_ne hne v CellValue.E

theorem rect_setCell {nR nC : Nat} {b : Board} (h : Rect nR nC b)
    (r c : Nat) (v : CellValue) : Rect nR nC (setCell b r c v) :=
  rect_setG h r c v

section RevealEngine

theorem getNeighbours_mem {numRows numCols row col : Nat} {p : Nat × Nat}
    (h : p ∈ getNeighbours numRows numCols row col) : p.1 < numRows ∧ p.2 < numCols := by
  unfold getNeighbours at h
  rcases List.mem_filterMap.1 h with ⟨d, _, hd⟩
  by_cases hcond : 0 ≤ (row : Int) + d.1 ∧ (row : Int) + d.1 < (numRows : Int) ∧
      0 ≤ (col : Int) + d.2 ∧ (col : Int) + d.2 < (numCols : Int)
  · rw [if_pos hcond] at hd
    obtain ⟨h1, h2, h3, h4⟩ := hcond
    cases hd
    constructor <;> simp <;> omega
  · rw [if_neg hcond] at hd
    cases hd

theorem getNeighbours_length_le (numRows numCols row col : Nat) :
    (getNeighbours numRows numCols row col).length ≤ 8 := by
  unfold getNeighbours
  calc (deltas.filterMap _).length ≤ deltas.length := List.length_filterMap_le _ _
    _ = 8 := rfl

theorem adjMines_le_8 (numRows numCols : Nat) (b : Board) (row col : Nat) :
    adjMines numRows numCols b row col ≤ 8 := by
  unfold adjMines
  calc ((getNeighbours numRows numCols row col).filter _).length
      ≤ (getNeighbours numRows numCols row col).length := List.length_filter_le _ _
    _ ≤ 8 := getNeighbours_length_le numRows numCols row col

theorem revealInv_refl (nR nC : Nat) (b : Board) : RevealInv nR nC b b := by
  intro r c
  exact ⟨fun _ => rfl, fun h => Or.inl h⟩

theorem revealInv_mine_iff {nR nC : Nat} {b0 b : Board} (h : RevealInv nR nC b0 b)
    (r c : Nat) : getCell b r c = CellValue.M ↔ getCell b0 r c = CellValue.M := by
  constructor
  · intro hb
    by_cases h0 : getCell b0 r c = CellValue.E
    · rcases (h r c).2 h0 with h1 | h1 | ⟨h1, _⟩ <;> rw [h1] at hb <;> cases hb
    · rw [← (h r c).1 h0]; exact hb
  · intro hb0
    rw [(h r c).1 (by rw [hb0]; intro hEq; cases hEq), hb0]

theorem revealInv_adjMines {nR nC : Nat} {b0 b : Board} (h : RevealInv nR nC b0 b)
    (row col : Nat) : adjMines nR nC b row col = adjMines nR nC b0 row col := by
  unfold adjMines
  congr 1
  apply List.filter_congr
  intro p _
  simp only [decide_eq_decide]
  exact revealInv_mine_iff h p.1 p.2

theorem revealInv_set {nR nC : Nat} {b0 b : Board} (h : RevealInv nR nC b0 b)
    (hb : Rect nR nC b) {row col : Nat} (hrow : row < nR) (hcol : col < nC)
    (h0 : getCell b0 row col = CellValue.E) {v : CellValue}
    (hv : v = CellValue.RE ∨
      (v = CellValue.digit (adjMines nR nC b0 row col) ∧ 1 ≤ adjMines nR nC b0 row col)) :
    RevealInv nR nC b0 (setCell b row col v) := by
  intro r c
  by_cases hpair : (r, c) = (row, col)
  · have hr : r = row := congrArg Prod.fst hpair
    have hc : c = col := congrArg Prod.snd hpair
    subst hr; subst hc
    constructor
    · intro hne; exact absurd h0 hne
    · intro _
      have hset : getCell (setCell b r c v) r c = v := getG_setG_self hb hrow hcol v _
      rcases hv with hv | ⟨hv, hm⟩
      · exact Or.inr (Or.inl (by rw [hset, hv]))
      · exact Or.inr (Or.inr ⟨by rw [hset, hv], hm⟩)
  · have hset : getCell (setCell b row col v) r c = getCell b r c :=
      getG_setG_ne hpair v _
    rw [hset]
    exact h r c

theorem markCell_inv (nR nC : Nat) (b0 : Board) :
    ∀ (fuel : Nat) (b : Board) (row col : Nat), Rect nR nC b → RevealInv nR nC b0 b →
      row < nR → col < nC →
      Rect nR nC (markCell nR nC fuel b row col) ∧
      RevealInv nR nC b0 (markCell nR nC fuel b row col) := by
  intro fuel
  induction fuel with
  | zero => intro b row col hb hinv _ _; exact ⟨hb, hinv⟩
  | succ fuel ih =>
    intro b row col hb hinv hrow hcol
    show Rect nR nC (markCell nR nC (fuel + 1) b row col) ∧ _
    rw [markCell]
    by_cases hE : getCell b row col = CellValue.E
    · rw [if_pos hE]
      have h0 : getCell b0 row col = CellValue.E := by
        by_contra h0
        have heq := (hinv row col).1 h0
        rw [heq] at hE
        exact h0 hE
      have hadj : adjMines nR nC b row col = adjMines nR nC b0 row col :=
        revealInv_adjMines hinv row col
      by_cases hm : adjMines nR nC b row col = 0
      · rw [if_pos hm]
        have hb1 : Rect nR nC (setCell b row col CellValue.RE) := rect_setG hb row col _
        have hinv1 : RevealInv nR nC b0 (setCell b row col CellValue.RE) :=
          revealInv_set hinv hb hrow hcol h0 (Or.inl rfl)
        have haux : ∀ (l : List (Nat × Nat)) (acc : Board),
            (∀ p ∈ l, p.1 < nR ∧ p.2 < nC) → Rect nR nC acc → RevealInv nR nC b0 acc →
            Rect nR nC (l.foldl
              (fun acc p => markCell nR nC fuel acc p.1 p.2) acc) ∧
            RevealInv nR nC b0 (l.foldl
              (fun acc p => markCell nR nC fuel acc p.1 p.2) acc) := by
          intro l
          induction l with
          | nil => intro acc _ ha hi; exact ⟨ha, hi⟩
          | cons p ps ihl =>
            intro acc hl ha hi
            have hp := hl p (List.mem_cons_self p ps)
            have hstep := ih acc p.1 p.2 ha hi hp.1 hp.2
            exact ihl _ (fun q hq => hl q (List.mem_cons_of_mem p hq)) hstep.1 hstep.2
        exact haux _ _ (fun q hq => getNeighbours_mem hq) hb1 hinv1
      · rw [if_neg hm]
        refine ⟨rect_setG hb row col _, ?_⟩
        rw [hadj]
        exact revealInv_set hinv hb hrow hcol h0
          (Or.inr ⟨rfl, Nat.one_le_iff_ne_zero.2 (hadj ▸ hm)⟩)
    · rw [if_neg hE]
      exact ⟨hb, hinv⟩

/-- C5: Cell monotonicity invariant of the reveal engine — `updateBoard`
leaves every non-`'E'` cell exactly unchanged, and every `'E'` cell either
stays `'E'`, or becomes `'RE'`, or becomes a digit `'1'`..`'8'` equal to its
number of 8-directional mine neighbours. -/
theorem updateBoard_monotone (b : Board) (row col : Nat)
    (hrect : Rect b.length ((b.getD 0 []).length) b)
    (hrow : row < b.length) (hcol : col < (b.getD 0 []).length) :
    ∀ r c : Nat,
      (getCell b r c ≠ CellValue.E →
        getCell (updateBoard b (row, col)) r c = getCell b r c) ∧
      (getCell b r c = CellValue.E →
        getCell (updateBoard b (row, col)) r c = CellValue.E ∨
        getCell (updateBoard b (row, col)) r c = CellValue.RE ∨
        (getCell (updateBoard b (row, col)) r c =
            CellValue.digit (adjMines b.length ((b.getD 0 []).length) b r c) ∧
          1 ≤ adjMines b.length ((b.getD 0 []).length) b r c ∧
          adjMines b.length ((b.getD 0 []).length) b r c ≤ 8)) := by
  have h := markCell_inv b.length ((b.getD 0 []).length) b
    (b.length * (b.getD 0 []).length + 1) b row col hrect
    (revealInv_refl _ _ b) hrow hcol
  intro r c
  refine ⟨fun hne => (h.2 r c).1 hne, fun hE => ?_⟩
  rcases (h.2 r c).2 hE with h1 | h1 | ⟨h1, h2⟩
  · exact Or.inl h1
  · exact Or.inr (Or.inl h1)
  · exact Or.inr (Or.inr ⟨h1, h2, adjMines_le_8 _ _ b r c⟩)

/-- Witness for C5 at a concrete board: the mine at `(0,1)` is unchanged and
the clicked `'E'` cell at `(0,0)` becomes a digit equal to its mine count. -/
theorem updateBoard_monotone_witness :
    getCell (updateBoard [[CellValue.E, CellValue.M]] (0, 0)) 0 1 =
      getCell [[CellValue.E, CellValue.M]] 0 1 ∧
    (getCell (updateBoard [[CellValue.E, CellValue.M]] (0, 0)) 0 0 = CellValue.E ∨
      getCell (updateBoard [[CellValue.E, CellValue.M]] (0, 0)) 0 0 = CellValue.RE ∨
      (getCell (updateBoard [[CellValue.E, CellValue.M]] (0, 0)) 0 0 =
          CellValue.digit (adjMines (List.length [[CellValue.E, CellValue.M]])
            ((List.getD [[CellValue.E, CellValue.M]] 0 []).length)
            [[CellValue.E, CellValue.M]] 0 0) ∧
        1 ≤ adjMines (List.length [[CellValue.E, CellValue.M]])
          ((List.getD [[CellValue.E, CellValue.M]] 0 []).length)
          [[CellValue.E, CellValue.M]] 0 0 ∧
        adjMines (List.length [[CellValue.E, CellValue.M]])
          ((List.getD [[CellValue.E, CellValue.M]] 0 []).length)
          [[CellValue.E, CellValue.M]] 0 0 ≤ 8)) :=
  ⟨(updateBoard_monotone [[CellValue.E, CellValue.M]] 0 0
      (by constructor <;> simp +decide) (by decide) (by decide) 0 1).1 (by decide),
    (updateBoard_monotone [[CellValue.E, CellValue.M]] 0 0
      (by constructor <;> simp +decide) (by decide) (by decide) 0 0).2 (by decide)⟩

/-- C8: Idempotence of reveal — `updateBoard` on an in-range target whose
value is already revealed (`'RE'`, a digit, or `'RM'`) returns the input
board unchanged. -/
theorem updateBoard_idempotent (b : Board) (row col : Nat)
    (hrow : row < b.length) (hcol : col < (b.getD 0 []).length)
    (h : getCell b row col = CellValue.RE ∨
      (∃ n, getCell b row col = CellValue.digit n) ∨
      getCell b row col = CellValue.RM) :
    updateBoard b (row, col) = b := by
  have hne : ¬ getCell b row col = CellValue.E := by
    rcases h with h1 | ⟨n, h1⟩ | h1 <;> rw [h1] <;> intro hEq <;> cases hEq
  unfold updateBoard
  rw [markCell]
  rw [if_neg hne]

/-- Witness for C8 on a concrete already-revealed cell. -/
theorem updateBoard_idempotent_witness :
    updateBoard [[CellValue.RE, CellValue.M]] (0, 0) = [[CellValue.RE, CellValue.M]] :=
  updateBoard_idempotent [[CellValue.RE, CellValue.M]] 0 0 (by decide) (by decide)
    (Or.inl (by decide))

end RevealEngine

section MinePlacement

theorem perm_cons_getD_set (xs : List Nat) (i : Nat) (x : Nat) (h : i < xs.length) :
    List.Perm (x :: xs) (xs.getD i 0 :: xs.set i x) := by
  induction xs generalizing i with
  | nil => simp at h
  | cons y ys ih =>
    cases i with
    | zero => exact List.Perm.swap y x ys
    | succ k =>
      have hk : k < ys.length := Nat.lt_of_succ_lt_succ h
      exact ((List.Perm.swap y x ys).trans ((ih k hk).cons y)).trans
        (List.Perm.swap (ys.getD k 0) y (ys.set k x))

theorem swapL_perm (l : List Nat) (i j : Nat) (hi : i < l.length) (hj : j < l.length) :
    List.Perm (swapL l i j) l := by
  induction l generalizing i j with
  | nil => simp at hi
  | cons x xs ih =>
    cases i with
    | zero =>
      cases j with
      | zero =>
        show List.Perm (((x :: xs).set 0 x).set 0 x) (x :: xs)
        exact List.Perm.refl _
      | succ m =>
        have hm : m < xs.length := Nat.lt_of_succ_lt_succ hj
        show List.Perm (xs.getD m 0 :: xs.set m x) (x :: xs)
        exact (perm_cons_getD_set xs m x hm).symm
    | succ n =>
      have hn : n < xs.length := Nat.lt_of_succ_lt_succ hi
      cases j with
      | zero =>
        show List.Perm (xs.getD n 0 :: xs.set n x) (x :: xs)
        exact (perm_cons_getD_set xs n x hn).symm
      | succ m =>
        have hm : m < xs.length := Nat.lt_of_succ_lt_succ hj
        show List.Perm (x :: swapL xs n m) (x :: xs)
        exact (ih n m hn hm).cons x

theorem fyLoop_perm (rand : Nat → Nat) :
    ∀ (i : Nat) (l : List Nat), i < l.length → List.Perm (fyLoop rand l i) l := by
  intro i
  induction i with
  | zero => intro l _; exact List.Perm.refl l
  | succ k ih =>
    intro l hl
    rw [fyLoop]
    have hj : rand (k + 1) % (k + 2) < l.length := by
      have := Nat.mod_lt (rand (k + 1)) (y := k + 2) (by omega)
      omega
    have hswap := swapL_perm l (k + 1) (rand (k + 1) % (k + 2)) hl hj
    have hlen := hswap.length_eq
    exact (ih _ (by omega)).trans hswap

theorem fyShuffle_perm (rand : Nat → Nat) (l : List Nat) :
    List.Perm (fyShuffle rand l) l := by
  cases l with
  | nil => exact List.Perm.refl _
  | cons x xs =>
    exact fyLoop_perm rand ((x :: xs).length - 1) (x :: xs) (by simp)

theorem count_set_M (row : List CellValue) (c : Nat) (h : c < row.length)
    (hne : row.getD c CellValue.E ≠ CellValue.M) :
    (row.set c CellValue.M).count CellValue.M = row.count CellValue.M + 1 := by
  induction row generalizing c with
  | nil => simp at h
  | cons x xs ih =>
    cases c with
    | zero =>
      have hx : x ≠ CellValue.M := hne
      rw [List.set_cons_zero, List.count_cons_self,
        List.count_cons_of_ne (fun hEq => hx hEq.symm)]
    | succ k =>
      have hk : k < xs.length := Nat.lt_of_succ_lt_succ h
      rw [List.set_cons_succ]
      by_cases hx : x = CellValue.M
      · subst hx
        rw [List.count_cons_self, List.count_cons_self, ih k hk hne]
      · rw [List.count_cons_of_ne (fun hEq => hx hEq.symm),
          List.count_cons_of_ne (fun hEq => hx hEq.symm), ih k hk hne]

theorem countMines_setCell (b : Board) (r c : Nat) (hr : r < b.length)
    (hc : c < (b.getD r []).length) (hne : getCell b r c ≠ CellValue.M) :
    countMines (setCell b r c CellValue.M) = countMines b + 1 := by
  induction b generalizing r with
  | nil => simp at hr
  | cons row rows ih =>
    cases r with
    | zero =>
      show countMines (row.set c CellValue.M :: rows) = _
      unfold countMines
      rw [List.map_cons, List.map_cons, List.sum_cons, List.sum_cons,
        count_set_M row c hc hne]
      omega
    | succ k =>
      have hk : k < rows.length := Nat.lt_of_succ_lt_succ hr
      show countMines (row :: setCell rows k c CellValue.M) = _
      unfold countMines
      rw [List.map_cons, List.map_cons, List.sum_cons, List.sum_cons]
      have := ih k hk hc hne
      unfold countMines at this
      omega

theorem placeMines_ignore (size : Nat) (ignore : Nat × Nat) :
    ∀ (l : List Nat) (need : Nat) (b : Board),
      getCell (placeMines size ignore l need b) ignore.1 ignore.2 =
        getCell b ignore.1 ignore.2 := by
  intro l
  induction l with
  | nil => intro need b; rfl
  | cons idx rest ih =>
    intro need b
    rw [placeMines]
    by_cases h0 : need = 0
    · rw [if_pos h0]
    · rw [if_neg h0]
      by_cases hskip : idx / size = ignore.1 ∧ idx % size = ignore.2
      · rw [if_pos hskip]; exact ih need b
      · rw [if_neg hskip, ih]
        refine getG_setG_ne ?_ _ _
        intro hEq
        exact hskip ⟨(congrArg Prod.fst hEq).symm, (congrArg Prod.snd hEq).symm⟩

theorem rect_placeMines (N : Nat) (size : Nat) (ignore : Nat × Nat) :
    ∀ (l : List Nat) (need : Nat) (b : Board), Rect N N b →
      Rect N N (placeMines size ignore l need b) := by
  intro l
  induction l with
  | nil => intro need b hb; exact hb
  | cons idx rest ih =>
    intro need b hb
    rw [placeMines]
    by_cases h0 : need = 0
    · rw [if_pos h0]; exact hb
    · rw [if_neg h0]
      by_cases hskip : idx / size = ignore.1 ∧ idx % size = ignore.2
      · rw [if_pos hskip]; exact ih need b hb
      · rw [if_neg hskip]
        exact ih _ _ (rect_setG hb _ _ _)

theorem rect_attachMines (rand : Nat → Nat) {N : Nat} (b : Board)
    (minesCount : Nat) (p : Nat × Nat) (hb : Rect N N b) :
    Rect N N (attachMines rand b minesCount p) := by
  rw [attachMines]
  by_cases h0 : minesCount = 0
  · rw [if_pos h0]; exact hb
  · rw [if_neg h0]; exact rect_placeMines N _ _ _ _ _ hb

theorem attachMines_ignore (rand : Nat → Nat) (b : Board) (minesCount : Nat)
    (p : Nat × Nat) :
    getCell (attachMines rand b minesCount p) p.1 p.2 = getCell b p.1 p.2 := by
  rw [attachMines]
  by_cases h0 : minesCount = 0
  · rw [if_pos h0]
  · rw [if_neg h0]; exact placeMines_ignore _ _ _ _ _

theorem placeMines_count (N : Nat) (ignore : Nat × Nat) (hN : 1 ≤ N) :
    ∀ (l : List Nat) (need : Nat) (b : Board), Rect N N b →
      (∀ k ∈ l, k < N ^ 2) → l.Nodup →
      (∀ k ∈ l, getCell b (k / N) (k % N) ≠ CellValue.M) →
      countMines (placeMines N ignore l need b) =
        countMines b +
          min need ((l.filter
            (fun k => !decide (k / N = ignore.1 ∧ k % N = ignore.2))).length) := by
  intro l
  induction l with
  | nil =>
    intro need b _ _ _ _
    simp [placeMines, List.filter_nil]
  | cons idx rest ih =>
    intro need b hb hlt hnd hfresh
    have hidx : idx < N ^ 2 := hlt idx (List.mem_cons_self idx rest)
    rw [placeMines]
    cases need with
    | zero => simp
    | succ m =>
      rw [if_neg (Nat.succ_ne_zero m)]
      by_cases hskip : idx / N = ignore.1 ∧ idx % N = ignore.2
      · rw [if_pos hskip, List.filter_cons]
        have : (!decide (idx / N = ignore.1 ∧ idx % N = ignore.2)) = false := by
          simp [hskip]
        rw [this]
        simp only [Bool.false_eq_true, if_false]
        exact ih (m + 1) b hb (fun k hk => hlt k (List.mem_cons_of_mem idx hk))
          (List.nodup_cons.1 hnd).2
          (fun k hk => hfresh k (List.mem_cons_of_mem idx hk))
      · rw [if_neg hskip, List.filter_cons]
        have hcond : (!decide (idx / N = ignore.1 ∧ idx % N = ignore.2)) = true := by
          simp [hskip]
        rw [hcond]
        simp only [if_true]
        have hrow : idx / N < N := Nat.div_lt_of_lt_mul (by
          have h2 : N ^ 2 = N * N := by ring
          omega)
        have hcol : idx % N < N := Nat.mod_lt idx (by omega)
        have hrlen : idx / N < b.length := by rw [hb.1]; exact hrow
        have hclen : idx % N < (b.getD (idx / N) []).length := by
          rw [rect_row_len hb hrow]; exact hcol
        have hfreshIdx : getCell b (idx / N) (idx % N) ≠ CellValue.M :=
          hfresh idx (List.mem_cons_self idx rest)
        have hcount := countMines_setCell b (idx / N) (idx % N) hrlen hclen hfreshIdx
        have hnotmem := (List.nodup_cons.1 hnd).1
        have hfresh2 : ∀ k ∈ rest,
            getCell (setCell b (idx / N) (idx % N) CellValue.M) (k / N) (k % N) ≠
              CellValue.M := by
          intro k hk
          have hkne : k ≠ idx := fun hEq => hnotmem (hEq ▸ hk)
          have hpair : (k / N, k % N) ≠ (idx / N, idx % N) := by
            intro hEq
            apply hkne
            have h1 : k / N = idx / N := congrArg Prod.fst hEq
            have h2 : k % N = idx % N := congrArg Prod.snd hEq
            have hk1 := Nat.div_add_mod k N
            have hk2 := Nat.div_add_mod idx N
            rw [h1, h2] at hk1
            omega
          rw [getCell_setCell_ne hpair CellValue.M]
          exact hfresh k (List.mem_cons_of_mem idx hk)
        have hstep := ih m (setCell b (idx / N) (idx % N) CellValue.M)
          (rect_setCell hb _ _ _)
          (fun k hk => hlt k (List.mem_cons_of_mem idx hk))
          (List.nodup_cons.1 hnd).2 hfresh2
        have hm1 : m + 1 - 1 = m := rfl
        rw [hm1, hstep, hcount, List.length_cons]
        omega

theorem length_filter_not_add {α : Type} (p q : α → Bool)
    (hq : ∀ a, q a = !(p a)) (l : List α) :
    (l.filter p).length + (l.filter q).length = l.length := by
  induction l with
  | nil => rfl
  | cons x xs ih =>
    by_cases h : p x = true
    · rw [List.filter_cons, List.filter_cons, if_pos h]
      have hqx : q x = false := by rw [hq, h]; rfl
      rw [hqx]
      simp only [Bool.false_eq_true, if_false, List.length_cons]
      omega
    · rw [List.filter_cons, List.filter_cons, if_neg h]
      have hqx : q x = true := by
        rw [hq]
        cases hpx : p x with
        | true => exact absurd hpx h
        | false => rfl
      rw [hqx]
      simp only [if_true, List.length_cons]
      omega

theorem nodup_all_eq_len (l : List Nat) (a : Nat) (hnd : l.Nodup)
    (hall : ∀ x ∈ l, x = a) (hmem : a ∈ l) : l.length = 1 := by
  cases l with
  | nil => cases hmem
  | cons x xs =>
    have hx : x = a := hall x (List.mem_cons_self x xs)
    cases xs with
    | nil => rfl
    | cons y ys =>
      have hy : y = a := hall y (List.mem_cons_of_mem x (List.mem_cons_self y ys))
      exfalso
      exact (List.nodup_cons.1 hnd).1 (by rw [hx, ← hy]; exact List.mem_cons_self y ys)

theorem filter_skip_range_len (N ir ic : Nat) (hN : 1 ≤ N) (hir : ir < N)
    (hic : ic < N) :
    ((List.range (N ^ 2)).filter
      (fun k => decide (k / N = ir ∧ k % N = ic))).length = 1 := by
  apply nodup_all_eq_len _ (N * ir + ic)
  · exact (List.nodup_range _).filter _
  · intro x hx
    rcases List.mem_filter.1 hx with ⟨_, hp⟩
    have hp2 : x / N = ir ∧ x % N = ic := of_decide_eq_true hp
    have hdm := Nat.div_add_mod x N
    rw [hp2.1, hp2.2] at hdm
    omega
  · apply List.mem_filter.2
    have hlt : N * ir + ic < N ^ 2 := by
      have h1 : N * (ir + 1) = N * ir + N := by ring
      have h2 : N * (ir + 1) ≤ N * N := Nat.mul_le_mul_left N hir
      have h3 : N ^ 2 = N * N := by ring
      omega
    refine ⟨List.mem_range.2 hlt, ?_⟩
    apply decide_eq_true
    constructor
    · rw [Nat.mul_add_div (by omega), Nat.div_eq_of_lt hic]
      omega
    · rw [Nat.mul_add_mod, Nat.mod_eq_of_lt hic]

theorem getD_eq_get {α : Type} (l : List α) (i : Nat) (d : α) (h : i < l.length) :
    l.getD i d = l.get ⟨i, h⟩ := by
  induction l generalizing i with
  | nil => simp at h
  | cons x xs ih =>
    cases i with
    | zero => rfl
    | succ n => exact ih n (Nat.lt_of_succ_lt_succ h)

theorem countMines_zero (N : Nat) (b : Board) (hb : Rect N N b)
    (hE : ∀ r, r < N → ∀ c, c < N → getCell b r c = CellValue.E) :
    countMines b = 0 := by
  unfold countMines
  apply List.sum_eq_zero
  intro x hx
  rcases List.mem_map.1 hx with ⟨row, hrow, hcount⟩
  rcases List.mem_iff_get.1 hrow with ⟨⟨i, hi⟩, hget⟩
  rw [← hcount]
  rw [List.count_eq_zero]
  intro hM
  rcases List.mem_iff_get.1 hM with ⟨⟨j, hj⟩, hgetj⟩
  have hiN : i < N := by rw [← hb.1]; exact hi
  have hjN : j < N := by
    have := hb.2 row hrow
    omega
  have hcell := hE i hiN j hjN
  unfold getCell getG at hcell
  rw [getD_eq_get b i [] hi, hget, getD_eq_get row j CellValue.E hj, hgetj] at hcell
  cases hcell

/-- C2: Mine placement count and clamping — on an all-`'E'` square board of
size `N ≥ 1`, `attachMines` places exactly `min minesCount (N² − 1)` mines
and never turns the protected cell into a mine. -/
theorem attachMines_count (rand : Nat → Nat) (N minesCount ir ic : Nat) (b : Board)
    (hN : 1 ≤ N) (hb : Rect N N b)
    (hE : ∀ r, r < N → ∀ c, c < N → getCell b r c = CellValue.E)
    (hir : ir < N) (hic : ic < N) :
    countMines (attachMines rand b minesCount (ir, ic)) =
      min minesCount (N ^ 2 - 1) ∧
    getCell (attachMines rand b minesCount (ir, ic)) ir ic = CellValue.E := by
  constructor
  · rw [attachMines]
    by_cases h0 : minesCount = 0
    · rw [if_pos h0, countMines_zero N b hb hE, h0]
      omega
    · rw [if_neg h0]
      simp only [hb.1]
      have hperm := fyShuffle_perm rand (List.range (N ^ 2))
      have hcnt := placeMines_count N (ir, ic) hN
        (fyShuffle rand (List.range (N ^ 2))) (min minesCount (N ^ 2 - 1)) b hb
        (fun k hk => List.mem_range.1 (hperm.mem_iff.1 hk))
        (hperm.nodup_iff.2 (List.nodup_range _))
        (fun k hk => by
          have hkN := List.mem_range.1 (hperm.mem_iff.1 hk)
          have hrow : k / N < N := Nat.div_lt_of_lt_mul (by
            have : N ^ 2 = N * N := by ring
            omega)
          have hcol : k % N < N := Nat.mod_lt k (by omega)
          rw [hE _ hrow _ hcol]
          intro hEq; cases hEq)
      rw [hcnt, countMines_zero N b hb hE]
      have hfl : ((fyShuffle rand (List.range (N ^ 2))).filter
          (fun k => !decide (k / N = (ir, ic).1 ∧ k % N = (ir, ic).2))).length =
          N ^ 2 - 1 := by
        rw [(hperm.filter _).length_eq]
        have hsplit := length_filter_not_add
          (fun k => decide (k / N = ir ∧ k % N = ic))
          (fun k => !decide (k / N = (ir, ic).1 ∧ k % N = (ir, ic).2))
          (fun a => rfl)
          (List.range (N ^ 2))
        have hone := filter_skip_range_len N ir ic hN hir hic
        rw [List.length_range] at hsplit
        rw [hone] at hsplit
        omega
      rw [hfl]
      have hle : min minesCount (N ^ 2 - 1) ≤ N ^ 2 - 1 := Nat.min_le_right _ _
      omega
  · have := attachMines_ignore rand b minesCount (ir, ic)
    rw [this]
    exact hE ir hir ic hic

/-- Witness for C2: a 2×2 board with a request of 4 mines gets exactly 3. -/
theorem attachMines_count_witness :
    countMines (attachMines (fun n => n) (initBoard 2) 4 (0, 0)) =
      min 4 (2 ^ 2 - 1) ∧
    getCell (attachMines (fun n => n) (initBoard 2) 4 (0, 0)) 0 0 = CellValue.E :=
  attachMines_count (fun n => n) 2 4 0 0 (initBoard 2) (by omega)
    (by constructor <;> simp [initBoard, create2dArray])
    (by decide) (by omega) (by omega)

end MinePlacement

section Session

theorem toggleFlag_pres (nR nC : Nat) (s : GameState) (r c : Nat) :
    (toggleFlag s r c).board = s.board ∧
    (toggleFlag s r c).gameEnded = s.gameEnded ∧
    (toggleFlag s r c).outcome = s.outcome ∧
    (Rect nR nC s.flagPositions → Rect nR nC (toggleFlag s r c).flagPositions) := by
  simp only [toggleFlag, startGame]
  split
  · exact ⟨rfl, rfl, rfl, fun h => h⟩
  · split <;> split <;>
    first
    | exact ⟨rfl, rfl, rfl, fun h => rect_setG h r c _⟩
    | exact ⟨rfl, rfl, rfl, fun h => h⟩

theorem revealMinesStep_pres (nR nC : Nat) (s : GameState) (p : Nat × Nat) :
    (revealMinesStep s p).board = s.board ∧
    (revealMinesStep s p).gameEnded = s.gameEnded ∧
    (revealMinesStep s p).outcome = s.outcome ∧
    (Rect nR nC s.flagPositions → Rect nR nC (revealMinesStep s p).flagPositions) := by
  simp only [revealMinesStep]
  split
  · exact toggleFlag_pres nR nC s p.1 p.2
  · exact ⟨rfl, rfl, rfl, fun h => h⟩

theorem diffStep_pres (nR nC : Nat) (updated : Board) (s : GameState) (p : Nat × Nat) :
    (diffStep updated s p).board = s.board ∧
    (diffStep updated s p).gameEnded = s.gameEnded ∧
    (diffStep updated s p).outcome = s.outcome ∧
    (Rect nR nC s.flagPositions → Rect nR nC (diffStep updated s p).flagPositions) := by
  unfold diffStep
  split
  · exact toggleFlag_pres nR nC s p.1 p.2
  · exact ⟨rfl, rfl, rfl, fun h => h⟩

theorem foldl_session_pres (nR nC : Nat) (f : GameState → Nat × Nat → GameState)
    (hf : ∀ (s : GameState) (p : Nat × Nat),
      (f s p).board = s.board ∧ (f s p).gameEnded = s.gameEnded ∧
      (f s p).outcome = s.outcome ∧
      (Rect nR nC s.flagPositions → Rect nR nC (f s p).flagPositions)) :
    ∀ (l : List (Nat × Nat)) (s : GameState),
      (l.foldl f s).board = s.board ∧ (l.foldl f s).gameEnded = s.gameEnded ∧
      (l.foldl f s).outcome = s.outcome ∧
      (Rect nR nC s.flagPositions → Rect nR nC (l.foldl f s).flagPositions) := by
  intro l
  induction l with
  | nil => intro s; exact ⟨rfl, rfl, rfl, fun h => h⟩
  | cons p ps ih =>
    intro s
    have h1 := hf s p
    have h2 := ih (f s p)
    refine ⟨?_, ?_, ?_, ?_⟩
    · rw [List.foldl_cons, h2.1, h1.1]
    · rw [List.foldl_cons, h2.2.1, h1.2.1]
    · rw [List.foldl_cons, h2.2.2.1, h1.2.2.1]
    · intro h
      rw [List.foldl_cons]
      exact h2.2.2.2 (h1.2.2.2 h)

theorem toggleFlag_flags (s : GameState) (r c : Nat) (hend : s.gameEnded = false) :
    (toggleFlag s r c).flagPositions =
      if getCell s.board r c = CellValue.E ∨ getCell s.board r c = CellValue.M then
        setG s.flagPositions r c (!(getG s.flagPositions r c false))
      else s.flagPositions := by
  simp only [toggleFlag, startGame, hend, Bool.false_eq_true, if_false]
  split <;> split <;> rfl

theorem revealMinesStep_flag_mono (s : GameState) (q p : Nat × Nat)
    (hf : getG s.flagPositions p.1 p.2 false = true) :
    getG (revealMinesStep s q).flagPositions p.1 p.2 false = true := by
  simp only [revealMinesStep]
  split
  · rename_i hcond
    by_cases hend : s.gameEnded = true
    · simp only [toggleFlag, hend, if_true]
      exact hf
    · rw [toggleFlag_flags s q.1 q.2 (Bool.not_eq_true _ ▸ hend)]
      split
      · by_cases hpq : (p.1, p.2) = (q.1, q.2)
        · exfalso
          have h1 : p.1 = q.1 := congrArg Prod.fst hpq
          have h2 : p.2 = q.2 := congrArg Prod.snd hpq
          rw [h1, h2] at hf
          rw [hf] at hcond
          exact hcond.1 rfl
        · rw [getG_setG_ne hpq]
          exact hf
      · exact hf
  · exact hf

theorem revealMinesStep_flag_set (nR nC : Nat) (s : GameState) (q : Nat × Nat)
    (hend : s.gameEnded = false) (hrect : Rect nR nC s.flagPositions)
    (hq1 : q.1 < nR) (hq2 : q.2 < nC)
    (hM : getCell s.board q.1 q.2 = CellValue.M) :
    getG (revealMinesStep s q).flagPositions q.1 q.2 false = true := by
  simp only [revealMinesStep]
  by_cases hflag : getG s.flagPositions q.1 q.2 false = true
  · split
    · rename_i hcond
      exact absurd hflag hcond.1
    · exact hflag
  · rw [if_pos ⟨hflag, Or.inl hM⟩]
    rw [toggleFlag_flags s q.1 q.2 hend, if_pos (Or.inr hM),
      getG_setG_self hrect hq1 hq2]
    rw [Bool.not_eq_true] at hflag
    rw [hflag]
    rfl

theorem revealMines_fold_flag (nR nC : Nat) :
    ∀ (l : List (Nat × Nat)) (s : GameState),
      s.gameEnded = false → Rect nR nC s.flagPositions →
      (∀ p : Nat × Nat, p ∈ l → p.1 < nR → p.2 < nC →
        getCell s.board p.1 p.2 = CellValue.M →
        getG ((l.foldl revealMinesStep s).flagPositions) p.1 p.2 false = true) ∧
      (∀ p : Nat × Nat, getG s.flagPositions p.1 p.2 false = true →
        getG ((l.foldl revealMinesStep s).flagPositions) p.1 p.2 false = true) := by
  intro l
  induction l with
  | nil =>
    intro s _ _
    exact ⟨fun p hp => absurd hp (List.not_mem_nil p), fun p hf => hf⟩
  | cons q qs ih =>
    intro s hend hrect
    have hpres := revealMinesStep_pres nR nC s q
    have hend2 : (revealMinesStep s q).gameEnded = false := by rw [hpres.2.1, hend]
    have hrect2 := hpres.2.2.2 hrect
    have hih := ih (revealMinesStep s q) hend2 hrect2
    constructor
    · intro p hp hp1 hp2 hM
      rw [List.foldl_cons]
      rcases List.mem_cons.1 hp with hpq | hp
      · subst hpq
        exact hih.2 p (revealMinesStep_flag_set nR nC s p hend hrect hp1 hp2 hM)
      · exact hih.1 p hp hp1 hp2 (by rw [hpres.1]; exact hM)
    · intro p hf
      rw [List.foldl_cons]
      exact hih.2 p (revealMinesStep_flag_mono s q p hf)

theorem mem_allPositions (n : Nat) (p : Nat × Nat) :
    p ∈ allPositions n ↔ p.1 < n ∧ p.2 < n := by
  unfold allPositions
  constructor
  · intro h
    rcases List.mem_flatMap.1 h with ⟨r, hr, hmem⟩
    rcases List.mem_map.1 hmem with ⟨c, hc, hpc⟩
    subst hpc
    exact ⟨List.mem_range.1 hr, List.mem_range.1 hc⟩
  · intro ⟨h1, h2⟩
    apply List.mem_flatMap.2
    refine ⟨p.1, List.mem_range.2 h1, ?_⟩
    apply List.mem_map.2
    exact ⟨p.2, List.mem_range.2 h2, rfl⟩

theorem getCell_initBoard (size r c : Nat) (hr : r < size) :
    getCell (initBoard size) r c = CellValue.E := by
  unfold getCell getG initBoard create2dArray
  rw [getD_replicate_lt _ _ _ _ hr, getD_replicate]

theorem getFlag_create2d (size r c : Nat) :
    getG (create2dArray false size) r c false = false := by
  unfold getG create2dArray
  by_cases hr : r < size
  · rw [getD_replicate_lt _ _ _ _ hr, getD_replicate]
  · rw [getD_ge (List.replicate size (List.replicate size false)) r []
      (by simpa using Nat.le_of_not_lt hr)]
    cases c <;> rfl

theorem rect_initBoard (size : Nat) : Rect size size (initBoard size) :=
  rect_mkGrid size size CellValue.E

theorem rect_create2d_false (size : Nat) : Rect size size (create2dArray false size) :=
  rect_mkGrid size size false

theorem updateBoard_rect {n : Nat} {b : Board} (hb : Rect n n b) (row col : Nat)
    (hrow : row < n) (hcol : col < n) : Rect n n (updateBoard b (row, col)) := by
  unfold updateBoard
  have h1 : b.length = n := hb.1
  have h2 : (b.getD 0 []).length = n := rect_row_len hb (by omega)
  rw [h1, h2]
  exact (markCell_inv n n b (n * n + 1) b row col hb (revealInv_refl n n b)
    hrow hcol).1

theorem updateBoard_inv {n : Nat} {b : Board} (hb : Rect n n b) (row col : Nat)
    (hrow : row < n) (hcol : col < n) : RevealInv n n b (updateBoard b (row, col)) := by
  unfold updateBoard
  have h1 : b.length = n := hb.1
  have h2 : (b.getD 0 []).length = n := rect_row_len hb (by omega)
  rw [h1, h2]
  exact (markCell_inv n n b (n * n + 1) b row col hb (revealInv_refl n n b)
    hrow hcol).2

/-- C4: Loss detection — in an in-progress session with mines placed,
revealing an unflagged `'M'` cell sets exactly that cell to `'RM'` (all other
cells, in particular all other mines, unchanged), ends the session as lost,
and leaves the flag overlay untouched. -/
theorem revealCell_loss (rand : Nat → Nat) (s : GameState) (row col : Nat)
    (hend : s.gameEnded = false) (hfc : s.firstClick = false)
    (hflag : getG s.flagPositions row col false = false)
    (hM : getCell s.board row col = CellValue.M) :
    (revealCell rand s row col).board = setCell s.board row col CellValue.RM ∧
    (revealCell rand s row col).outcome = some false ∧
    (revealCell rand s row col).gameEnded = true ∧
    (revealCell rand s row col).flagPositions = s.flagPositions := by
  by_cases hgs : s.gameStarted = true <;>
    simp only [revealCell, startGame, endGame, revealMines, hend, hgs, hfc, hflag,
      hM, Bool.false_eq_true, if_false, if_true, ite_true, ite_false,
      Bool.true_eq_false, Bool.false_eq_true] <;>
    exact ⟨by trivial, by trivial, by trivial, by trivial⟩

/-- Witness for C4 at a concrete 1×2 board. -/
theorem revealCell_loss_witness :
    (revealCell (fun n => n)
      { size := 2, minesCount := 1, board := [[CellValue.M, CellValue.E]],
        flagPositions := [[false, false]], remainingFlags := 1,
        gameEnded := false, gameStarted := true, firstClick := false,
        outcome := none } 0 0).board =
      setCell [[CellValue.M, CellValue.E]] 0 0 CellValue.RM ∧
    (revealCell (fun n => n)
      { size := 2, minesCount := 1, board := [[CellValue.M, CellValue.E]],
        flagPositions := [[false, false]], remainingFlags := 1,
        gameEnded := false, gameStarted := true, firstClick := false,
        outcome := none } 0 0).outcome = some false ∧
    (revealCell (fun n => n)
      { size := 2, minesCount := 1, board := [[CellValue.M, CellValue.E]],
        flagPositions := [[false, false]], remainingFlags := 1,
        gameEnded := false, gameStarted := true, firstClick := false,
        outcome := none } 0 0).gameEnded = true ∧
    (revealCell (fun n => n)
      { size := 2, minesCount := 1, board := [[CellValue.M, CellValue.E]],
        flagPositions := [[false, false]], remainingFlags := 1,
        gameEnded := false, gameStarted := true, firstClick := false,
        outcome := none } 0 0).flagPositions = [[false, false]] :=
  revealCell_loss (fun n => n) _ 0 0 rfl rfl (by decide) (by decide)

/-- C3: Win detection with auto-flag — in an in-progress session with mines
placed, a reveal of an unflagged non-mine cell that leaves no `'E'` cell
anywhere ends the session as won and flags every mine; if an `'E'` cell
remains the session stays in progress. -/
theorem revealCell_win (rand : Nat → Nat) (s : GameState) (row col : Nat)
    (hend : s.gameEnded = false) (hout : s.outcome = none) (hfc : s.firstClick = false)
    (hb : Rect s.size s.size s.board) (hf : Rect s.size s.size s.flagPositions)
    (hrow : row < s.size) (hcol : col < s.size)
    (hflag : getG s.flagPositions row col false = false)
    (hM : getCell s.board row col ≠ CellValue.M) :
    ((∀ r, r < s.size → ∀ c, c < s.size →
        getCell (updateBoard s.board (row, col)) r c ≠ CellValue.E) →
      (revealCell rand s row col).outcome = some true ∧
      (revealCell rand s row col).gameEnded = true ∧
      (∀ r, r < s.size → ∀ c, c < s.size →
        getCell (revealCell rand s row col).board r c = CellValue.M →
        getG (revealCell rand s row col).flagPositions r c false = true)) ∧
    ((∃ r, r < s.size ∧ ∃ c, c < s.size ∧
        getCell (updateBoard s.board (row, col)) r c = CellValue.E) →
      (revealCell rand s row col).outcome = none ∧
      (revealCell rand s row col).gameEnded = false) := by
  simp only [revealCell, hend, Bool.false_eq_true, if_false]
  set t : GameState := if s.gameStarted = true then s else startGame s with ht
  have htb : t.board = s.board := by rw [ht]; split <;> rfl
  have htf : t.flagPositions = s.flagPositions := by rw [ht]; split <;> rfl
  have hte : t.gameEnded = false := by rw [ht]; split <;> exact hend
  have hto : t.outcome = none := by rw [ht]; split <;> exact hout
  have htsz : t.size = s.size := by rw [ht]; split <;> rfl
  have htfc : t.firstClick = false := by rw [ht]; split <;> exact hfc
  simp only [htfc, Bool.false_eq_true, if_false]
  simp only [htf, hflag, Bool.false_eq_true, if_false]
  simp only [htb, htsz]
  rw [if_neg hM]
  have hurect : Rect s.size s.size (updateBoard s.board (row, col)) :=
    updateBoard_rect hb row col hrow hcol
  have hfold := foldl_session_pres s.size s.size
    (diffStep (updateBoard s.board (row, col)))
    (diffStep_pres s.size s.size (updateBoard s.board (row, col)))
    (allPositions s.size) t
  have h5b : ((allPositions s.size).foldl
      (diffStep (updateBoard s.board (row, col))) t).gameEnded = false := by
    rw [hfold.2.1, hte]
  have h5o : ((allPositions s.size).foldl
      (diffStep (updateBoard s.board (row, col))) t).outcome = none := by
    rw [hfold.2.2.1, hto]
  have h5f : Rect s.size s.size ((allPositions s.size).foldl
      (diffStep (updateBoard s.board (row, col))) t).flagPositions :=
    hfold.2.2.2 (htf ▸ hf)
  constructor
  · intro hnoE
    have hasE : ((allPositions s.size).any
        (fun p => decide (getCell (updateBoard s.board (row, col)) p.1 p.2 =
          CellValue.E))) = false := by
      rw [List.any_eq_false]
      intro p hp
      rcases (mem_allPositions s.size p).1 hp with ⟨h1, h2⟩
      rw [decide_eq_true_eq]
      exact hnoE p.1 h1 p.2 h2
    simp only [hasE, Bool.false_eq_true, if_false]
    refine ⟨rfl, rfl, ?_⟩
    intro r hr c hc hMcell
    simp only [endGame, revealMines, eq_self_iff_true, if_true] at hMcell ⊢
    set s6 : GameState :=
      { (allPositions s.size).foldl
          (diffStep (updateBoard s.board (row, col))) t with
        board := updateBoard s.board (row, col) } with hs6
    have h6b : s6.board = updateBoard s.board (row, col) := rfl
    have h6e : s6.gameEnded = false := h5b
    have h6f : Rect s.size s.size s6.flagPositions := h5f
    have h6len : s6.board.length = s.size := hurect.1
    have hflagfold := revealMines_fold_flag s.size s.size
      (allPositions s6.board.length) s6 h6e h6f
    have hMcell2 : getCell s6.board r c = CellValue.M := by
      have hfb := (foldl_session_pres s.size s.size revealMinesStep
        (revealMinesStep_pres s.size s.size)
        (allPositions s6.board.length) s6).1
      rw [hfb] at hMcell
      exact hMcell
    exact hflagfold.1 (r, c) ((mem_allPositions _ _).2 (by rw [h6len]; exact ⟨hr, hc⟩))
      hr hc hMcell2
  · intro ⟨r, hr, c, hc, hE⟩
    have hasE : ((allPositions s.size).any
        (fun p => decide (getCell (updateBoard s.board (row, col)) p.1 p.2 =
          CellValue.E))) = true := by
      rw [List.any_eq_true]
      exact ⟨(r, c), (mem_allPositions s.size (r, c)).2 ⟨hr, hc⟩, decide_eq_true hE⟩
    simp only [hasE, if_true]
    exact ⟨h5o, h5b⟩

/-- Witness for C3: revealing the last empty cell of a 2×2 board with three
mines wins and auto-flags the mines. -/
theorem revealCell_win_witness :
    (revealCell (fun n => n)
      { size := 2, minesCount := 3,
        board := [[CellValue.E, CellValue.M], [CellValue.M, CellValue.M]],
        flagPositions := [[false, false], [false, false]], remainingFlags := 3,
        gameEnded := false, gameStarted := true, firstClick := false,
        outcome := none } 0 0).outcome = some true ∧
    getG (revealCell (fun n => n)
      { size := 2, minesCount := 3,
        board := [[CellValue.E, CellValue.M], [CellValue.M, CellValue.M]],
        flagPositions := [[false, false], [false, false]], remainingFlags := 3,
        gameEnded := false, gameStarted := true, firstClick := false,
        outcome := none } 0 0).flagPositions 1 1 false = true :=
  have h := revealCell_win (fun n => n)
    { size := 2, minesCount := 3,
      board := [[CellValue.E, CellValue.M], [CellValue.M, CellValue.M]],
      flagPositions := [[false, false], [false, false]], remainingFlags := 3,
      gameEnded := false, gameStarted := true, firstClick := false,
      outcome := none } 0 0 rfl rfl rfl (by unfold Rect; decide)
    (by unfold Rect; decide) (by decide) (by decide) (by decide) (by decide)
  ⟨(h.1 (by decide)).1,
    (h.1 (by decide)).2.2 1 (by decide) 1 (by decide) (by decide)⟩

/-- C1: First-click safety — on a fresh session, `attachMines` never places a
mine on the protected first-clicked cell, so the first reveal never ends the
session as lost and never turns that cell into a mine. -/
theorem firstClick_safe (rand : Nat → Nat) (size minesCount row col : Nat)
    (hrow : row < size) (hcol : col < size) :
    getCell (attachMines rand (initBoard size) minesCount (row, col)) row col ≠
      CellValue.M ∧
    (revealCell rand (initialState size minesCount) row col).outcome ≠ some false ∧
    getCell (revealCell rand (initialState size minesCount) row col).board
      row col ≠ CellValue.M := by
  have hatt : getCell (attachMines rand (initBoard size) minesCount (row, col))
      row col = getCell (initBoard size) row col :=
    attachMines_ignore rand (initBoard size) minesCount (row, col)
  have hcellAtt : getCell (attachMines rand (initBoard size) minesCount (row, col))
      row col = CellValue.E := by
    rw [hatt]
    exact getCell_initBoard size row col hrow
  have hbrect : Rect size size
      (attachMines rand (initBoard size) minesCount (row, col)) :=
    rect_attachMines rand _ minesCount (row, col) (rect_initBoard size)
  refine ⟨(by rw [hcellAtt]; intro h; cases h), ?_⟩
  simp only [revealCell, initialState, startGame, Bool.false_eq_true, if_false,
    if_true, getFlag_create2d]
  rw [if_neg (by rw [hcellAtt]; intro h; cases h)]
  have hinv := updateBoard_inv hbrect row col hrow hcol
  have hucell : getCell (updateBoard
      (attachMines rand (initBoard size) minesCount (row, col)) (row, col))
      row col ≠ CellValue.M := by
    rcases (hinv row col).2 hcellAtt with h1 | h1 | ⟨h1, _⟩ <;> rw [h1] <;>
      intro hEq <;> cases hEq
  by_cases hasE : ((allPositions size).any
      (fun p => decide (getCell (updateBoard
        (attachMines rand (initBoard size) minesCount (row, col)) (row, col))
        p.1 p.2 = CellValue.E))) = true
  · simp only [hasE, if_true]
    constructor
    · have hfold := foldl_session_pres size size
        (diffStep (updateBoard
          (attachMines rand (initBoard size) minesCount (row, col)) (row, col)))
        (diffStep_pres size size _) (allPositions size)
        { size := size, minesCount := minesCount,
          board := attachMines rand (initBoard size) minesCount (row, col),
          flagPositions := create2dArray false size,
          remainingFlags := (minesCount : Int), gameEnded := false,
          gameStarted := true, firstClick := false, outcome := none }
      rw [hfold.2.2.1]
      intro h
      cases h
    · exact hucell
  · rw [Bool.not_eq_true] at hasE
    simp only [hasE, Bool.false_eq_true, if_false]
    constructor
    · simp only [endGame]
      intro h
      cases h
    · simp only [endGame, revealMines, eq_self_iff_true, if_true]
      have hfb : ∀ (l : List (Nat × Nat)) (st : GameState),
          (l.foldl revealMinesStep st).board = st.board :=
        fun l st => (foldl_session_pres size size revealMinesStep
          (revealMinesStep_pres size size) l st).1
      rw [hfb]
      exact hucell

/-- Witness for C1 on a fresh 2×2 session with one mine. -/
theorem firstClick_safe_witness :
    getCell (attachMines (fun n => n) (initBoard 2) 1 (0, 0)) 0 0 ≠
      CellValue.M ∧
    (revealCell (fun n => n) (initialState 2 1) 0 0).outcome ≠ some false ∧
    getCell (revealCell (fun n => n) (initialState 2 1) 0 0).board 0 0 ≠
      CellValue.M :=
  firstClick_safe (fun n => n) 2 1 0 0 (by decide) (by decide)

end Session

section ConnectivitySearch

theorem count_false_set_true (row : List Bool) (c : Nat) (hc : c < row.length)
    (hf : row.getD c false = false) :
    (row.set c true).count false + 1 = row.count false := by
  induction row generalizing c with
  | nil => simp at hc
  | cons x xs ih =>
    cases c with
    | zero =>
      have hx : x = false := hf
      subst hx
      rw [List.set_cons_zero, List.count_cons_self,
        List.count_cons_of_ne (by intro h; cases h)]
    | succ k =>
      have hk : k < xs.length := Nat.lt_of_succ_lt_succ hc
      rw [List.set_cons_succ]
      cases x with
      | false =>
        rw [List.count_cons_self, List.count_cons_self]
        have := ih k hk hf
        omega
      | true =>
        rw [List.count_cons_of_ne (by intro h; cases h),
          List.count_cons_of_ne (by intro h; cases h)]
        exact ih k hk hf

theorem countUnvisited_setG_aux (vis : List (List Bool)) :
    ∀ (r c : Nat), r < vis.length → c < (vis.getD r []).length →
      (vis.getD r []).getD c false = false →
      countUnvisited (setG vis r c true) + 1 = countUnvisited vis := by
  induction vis with
  | nil => intro r c hr; simp at hr
  | cons row rows ih =>
    intro r c hr hc hf
    cases r with
    | zero =>
      show countUnvisited (row.set c true :: rows) + 1 = _
      unfold countUnvisited
      rw [List.map_cons, List.map_cons, List.sum_cons, List.sum_cons]
      have := count_false_set_true row c hc hf
      omega
    | succ k =>
      have hk : k < rows.length := Nat.lt_of_succ_lt_succ hr
      show countUnvisited (row :: setG rows k c true) + 1 = _
      unfold countUnvisited
      rw [List.map_cons, List.map_cons, List.sum_cons, List.sum_cons]
      have := ih k c hk hc hf
      unfold countUnvisited at this
      omega

theorem countUnvisited_setG {nR nC : Nat} (vis : List (List Bool)) (r c : Nat)
    (hrect : Rect nR nC vis) (hr : r < nR) (hc : c < nC)
    (hf : getG vis r c false = false) :
    countUnvisited (setG vis r c true) + 1 = countUnvisited vis := by
  apply countUnvisited_setG_aux vis r c
  · rw [hrect.1]; exact hr
  · rw [rect_row_len hrect hr]; exact hc
  · exact hf

theorem countUnvisited_mkGrid (nR nC : Nat) :
    countUnvisited (mkGrid false nR nC) = nR * nC := by
  unfold countUnvisited mkGrid
  induction nR with
  | zero => simp
  | succ m ih =>
    rw [List.replicate_succ, List.map_cons, List.sum_cons, ih,
      List.count_replicate_self]
    ring

theorem getG_setG_true_of_true {g : List (List Bool)} {r c : Nat} {p : Nat × Nat}
    (h : getG g p.1 p.2 false = true) :
    getG (setG g r c true) p.1 p.2 false = true := by
  by_cases hpq : (p.1, p.2) = (r, c)
  · have h1 : p.1 = r := congrArg Prod.fst hpq
    have h2 : p.2 = c := congrArg Prod.snd hpq
    rw [h1, h2] at h ⊢
    unfold getG setG
    by_cases hr : r < g.length
    · rw [getD_set_self _ _ _ _ hr]
      by_cases hc : c < (g.getD r []).length
      · rw [getD_set_self _ _ _ _ hc]
      · rw [List.set_eq_of_length_le (Nat.le_of_not_lt hc)]
        exact h
    · rw [List.set_eq_of_length_le (Nat.le_of_not_lt hr)]
      exact h
  · rw [getG_setG_ne hpq]
    exact h

theorem pn_spec (board : Board) (nR nC : Nat) :
    ∀ (nbs : List (Nat × Nat)) (vis : List (List Bool)) (queue : List (Nat × Nat)),
      Rect nR nC vis → (∀ q ∈ nbs, q.1 < nR ∧ q.2 < nC) →
      (∀ found, processNeighbours board vis queue nbs = Sum.inl found →
        (getCell board found.1 found.2 = CellValue.E ∨
          getCell board found.1 found.2 = CellValue.M) ∧
        getG vis found.1 found.2 false = false ∧ found.1 < nR ∧ found.2 < nC) ∧
      (∀ vis2 queue2,
        processNeighbours board vis queue nbs = Sum.inr (vis2, queue2) →
        Rect nR nC vis2 ∧
        queue2.length + countUnvisited vis2 = queue.length + countUnvisited vis ∧
        (∀ p : Nat × Nat, getG vis p.1 p.2 false = true →
          getG vis2 p.1 p.2 false = true) ∧
        (∀ p : Nat × Nat, getG vis2 p.1 p.2 false = true →
          getG vis p.1 p.2 false = true ∨
          (¬(getCell board p.1 p.2 = CellValue.E ∨
              getCell board p.1 p.2 = CellValue.M) ∧ p.1 < nR ∧ p.2 < nC)) ∧
        (∀ p : Nat × Nat, getG vis2 p.1 p.2 false = true →
          getG vis p.1 p.2 false = true ∨ p ∈ queue2) ∧
        (∀ p ∈ queue, p ∈ queue2) ∧
        (∀ q ∈ nbs, getG vis2 q.1 q.2 false = true) ∧
        ((∀ p ∈ queue, getG vis p.1 p.2 false = true) →
          ∀ p ∈ queue2, getG vis2 p.1 p.2 false = true)) := by
  intro nbs
  induction nbs with
  | nil =>
    intro vis queue hrect _
    constructor
    · intro found hf
      simp [processNeighbours] at hf
    · intro vis2 queue2 hinr
      simp only [processNeighbours, Sum.inr.injEq, Prod.mk.injEq] at hinr
      obtain ⟨hv, hq⟩ := hinr
      subst hv; subst hq
      exact ⟨hrect, rfl, fun p h => h, fun p h => Or.inl h, fun p h => Or.inl h,
        fun p h => h, fun q hq => absurd hq (List.not_mem_nil q),
        fun h p hp => h p hp⟩
  | cons nb nbs ih =>
    intro vis queue hrect hnbs
    have hnb := hnbs nb (List.mem_cons_self nb nbs)
    have hnbs2 : ∀ q ∈ nbs, q.1 < nR ∧ q.2 < nC :=
      fun q hq => hnbs q (List.mem_cons_of_mem nb hq)
    by_cases hv : getG vis nb.1 nb.2 false = true
    · have heq : processNeighbours board vis queue (nb :: nbs) =
          processNeighbours board vis queue nbs := by
        simp only [processNeighbours, hv, if_true]
      rw [heq]
      have hrec := ih vis queue hrect hnbs2
      refine ⟨hrec.1, ?_⟩
      intro vis2 queue2 hinr
      have h := hrec.2 vis2 queue2 hinr
      exact ⟨h.1, h.2.1, h.2.2.1, h.2.2.2.1, h.2.2.2.2.1, h.2.2.2.2.2.1,
        fun q hq => List.mem_cons.1 hq |>.elim
          (fun hqe => hqe ▸ h.2.2.1 nb hv)
          (fun hqm => h.2.2.2.2.2.2.1 q hqm),
        h.2.2.2.2.2.2.2⟩
    · rw [Bool.not_eq_true] at hv
      by_cases hu : getCell board nb.1 nb.2 = CellValue.E ∨
          getCell board nb.1 nb.2 = CellValue.M
      · have heq : processNeighbours board vis queue (nb :: nbs) = Sum.inl nb := by
          simp only [processNeighbours, hv, Bool.false_eq_true, if_false, hu,
            if_true]
        rw [heq]
        constructor
        · intro found hf
          have hfe : nb = found := by injection hf
          subst hfe
          exact ⟨hu, hv, hnb.1, hnb.2⟩
        · intro vis2 queue2 hinr
          cases hinr
      · have heq : processNeighbours board vis queue (nb :: nbs) =
            processNeighbours board (setG vis nb.1 nb.2 true) (queue ++ [nb]) nbs := by
          simp only [processNeighbours, hv, Bool.false_eq_true, if_false, hu]
        rw [heq]
        have hrect2 : Rect nR nC (setG vis nb.1 nb.2 true) := rect_setG hrect _ _ _
        have hrec := ih (setG vis nb.1 nb.2 true) (queue ++ [nb]) hrect2 hnbs2
        have hnbset : getG (setG vis nb.1 nb.2 true) nb.1 nb.2 false = true :=
          getG_setG_self hrect hnb.1 hnb.2 true false
        have hmeasure : (queue ++ [nb]).length +
            countUnvisited (setG vis nb.1 nb.2 true) =
            queue.length + countUnvisited vis := by
          have := countUnvisited_setG vis nb.1 nb.2 hrect hnb.1 hnb.2 hv
          rw [List.length_append]
          simp only [List.length_cons, List.length_nil]
          omega
        constructor
        · intro found hf
          have h := hrec.1 found hf
          refine ⟨h.1, ?_, h.2.2⟩
          by_cases hpq : (found.1, found.2) = (nb.1, nb.2)
          · exfalso
            have h1 : found.1 = nb.1 := congrArg Prod.fst hpq
            have h2 : found.2 = nb.2 := congrArg Prod.snd hpq
            rw [h1, h2] at h
            exact hu h.1
          · have := h.2.1
            rw [getG_setG_ne hpq] at this
            exact this
        · intro vis2 queue2 hinr
          have h := hrec.2 vis2 queue2 hinr
          have hmono : ∀ p : Nat × Nat, getG vis p.1 p.2 false = true →
              getG vis2 p.1 p.2 false = true :=
            fun p hp => h.2.2.1 p (getG_setG_true_of_true hp)
          have hsplit : ∀ p : Nat × Nat,
              getG (setG vis nb.1 nb.2 true) p.1 p.2 false = true →
              getG vis p.1 p.2 false = true ∨ (p.1, p.2) = (nb.1, nb.2) := by
            intro p hp
            by_cases hpq : (p.1, p.2) = (nb.1, nb.2)
            · exact Or.inr hpq
            · rw [getG_setG_ne hpq] at hp
              exact Or.inl hp
          refine ⟨h.1, ?_, hmono, ?_, ?_, ?_, ?_, ?_⟩
          · rw [h.2.1, hmeasure]
          · intro p hp
            rcases h.2.2.2.1 p hp with hp2 | hp2
            · rcases hsplit p hp2 with hp3 | hp3
              · exact Or.inl hp3
              · refine Or.inr ⟨?_, ?_, ?_⟩
                · rw [congrArg Prod.fst hp3, congrArg Prod.snd hp3]
                  exact hu
                · rw [congrArg Prod.fst hp3]; exact hnb.1
                · rw [congrArg Prod.snd hp3]; exact hnb.2
            · exact Or.inr hp2
          · intro p hp
            rcases h.2.2.2.2.1 p hp with hp2 | hp2
            · rcases hsplit p hp2 with hp3 | hp3
              · exact Or.inl hp3
              · refine Or.inr ?_
                have hpnb : p = nb := Prod.ext (congrArg Prod.fst hp3)
                  (congrArg Prod.snd hp3)
                subst hpnb
                exact h.2.2.2.2.2.1 p (List.mem_append_right queue
                  (List.mem_cons_self p []))
            · exact Or.inr hp2
          · intro p hp
            exact h.2.2.2.2.2.1 p (List.mem_append_left _ hp)
          · intro q hq
            rcases List.mem_cons.1 hq with hqe | hqm
            · subst hqe
              exact h.2.2.1 q hnbset
            · exact h.2.2.2.2.2.2.1 q hqm
          · intro hqvis p hp
            refine h.2.2.2.2.2.2.2 ?_ p hp
            intro p2 hp2
            rcases List.mem_append.1 hp2 with hp3 | hp3
            · exact getG_setG_true_of_true (hqvis p2 hp3)
            · have : p2 = nb := List.mem_singleton.1 hp3
              subst this
              exact hnbset

theorem bfs_spec (nR nC : Nat) (board : Board) (start : Nat × Nat) :
    ∀ (fuel : Nat) (vis : List (List Bool)) (queue : List (Nat × Nat)),
      Rect nR nC vis →
      queue.length + countUnvisited vis < fuel →
      (∀ p ∈ queue, getG vis p.1 p.2 false = true) →
      (∀ p : Nat × Nat, getG vis p.1 p.2 false = true → p.1 < nR ∧ p.2 < nC) →
      (∀ p : Nat × Nat, getG vis p.1 p.2 false = true →
        p = start ∨ ¬(getCell board p.1 p.2 = CellValue.E ∨
          getCell board p.1 p.2 = CellValue.M)) →
      (∀ p : Nat × Nat, getG vis p.1 p.2 false = true →
        p ∈ queue ∨ ∀ q ∈ getNeighbours nR nC p.1 p.2,
          getG vis q.1 q.2 false = true) →
      getG vis start.1 start.2 false = true →
      ∃ res, bfsAux nR nC board fuel vis queue = some res ∧
        (∀ c, res = some c →
          (getCell board c.1 c.2 = CellValue.E ∨
            getCell board c.1 c.2 = CellValue.M) ∧
          c ≠ start ∧ c.1 < nR ∧ c.2 < nC) ∧
        (res = none → ∀ p : Nat × Nat, Reachable nR nC start p →
          p = start ∨ ¬(getCell board p.1 p.2 = CellValue.E ∨
            getCell board p.1 p.2 = CellValue.M)) := by
  intro fuel
  induction fuel with
  | zero =>
    intro vis queue _ hm
    omega
  | succ fuel ih =>
    intro vis queue hrect hm hI1 hI2 hI3 hI4 hI5
    cases queue with
    | nil =>
      refine ⟨none, rfl, ?_, ?_⟩
      · intro c hc
        cases hc
      · intro _ p hreach
        have hvisreach : getG vis p.1 p.2 false = true := by
          induction hreach with
          | refl => exact hI5
          | step hpr hnb ihr =>
            rcases hI4 _ ihr with hmem | hall
            · exact absurd hmem (List.not_mem_nil _)
            · exact hall _ hnb
        exact hI3 p hvisreach
    | cons cur rest =>
      have hnbrange : ∀ q ∈ getNeighbours nR nC cur.1 cur.2,
          q.1 < nR ∧ q.2 < nC := fun q hq => getNeighbours_mem hq
      have hpn := pn_spec board nR nC (getNeighbours nR nC cur.1 cur.2) vis rest
        hrect hnbrange
      rcases hpnres : processNeighbours board vis rest
          (getNeighbours nR nC cur.1 cur.2) with found | vq
      · have h := hpn.1 found hpnres
        refine ⟨some found, ?_, ?_, ?_⟩
        · simp only [bfsAux, hpnres]
        · intro c hc
          have hce : found = c := by injection hc
          subst hce
          refine ⟨h.1, ?_, h.2.2⟩
          intro hfs
          rw [hfs] at h
          rw [hI5] at h
          exact absurd h.2.1 (by intro hEq; cases hEq)
        · intro hc
          cases hc
      · obtain ⟨vis2, queue2⟩ := vq
        have h := hpn.2 vis2 queue2 hpnres
        have hI1rest : ∀ p ∈ rest, getG vis p.1 p.2 false = true :=
          fun p hp => hI1 p (List.mem_cons_of_mem cur hp)
        have hI1' : ∀ p ∈ queue2, getG vis2 p.1 p.2 false = true :=
          h.2.2.2.2.2.2.2 hI1rest
        have hI2' : ∀ p : Nat × Nat, getG vis2 p.1 p.2 false = true →
            p.1 < nR ∧ p.2 < nC := by
          intro p hp
          rcases h.2.2.2.1 p hp with hp2 | hp2
          · exact hI2 p hp2
          · exact hp2.2
        have hI3' : ∀ p : Nat × Nat, getG vis2 p.1 p.2 false = true →
            p = start ∨ ¬(getCell board p.1 p.2 = CellValue.E ∨
              getCell board p.1 p.2 = CellValue.M) := by
          intro p hp
          rcases h.2.2.2.1 p hp with hp2 | hp2
          · exact hI3 p hp2
          · exact Or.inr hp2.1
        have hI4' : ∀ p : Nat × Nat, getG vis2 p.1 p.2 false = true →
            p ∈ queue2 ∨ ∀ q ∈ getNeighbours nR nC p.1 p.2,
              getG vis2 q.1 q.2 false = true := by
          intro p hp
          rcases h.2.2.2.2.1 p hp with hp2 | hp2
          · rcases hI4 p hp2 with hmem | hall
            · rcases List.mem_cons.1 hmem with hcur | hrest
              · subst hcur
                exact Or.inr h.2.2.2.2.2.2.1
              · exact Or.inl (h.2.2.2.2.2.1 p hrest)
            · exact Or.inr (fun q hq => h.2.2.1 q (hall q hq))
          · exact Or.inl hp2
        have hI5' : getG vis2 start.1 start.2 false = true := h.2.2.1 _ hI5
        have hm' : queue2.length + countUnvisited vis2 < fuel := by
          have := h.2.1
          simp only [List.length_cons] at hm
          omega
        have hrec := ih vis2 queue2 h.1 hm' hI1' hI2' hI3' hI4' hI5'
        obtain ⟨res, hres, hsome, hnone⟩ := hrec
        refine ⟨res, ?_, hsome, hnone⟩
        simp only [bfsAux, hpnres]
        exact hres

theorem findUnrevealed_spec (board : Board) (sr sc : Nat)
    (hs1 : sr < board.length) (hs2 : sc < (board.getD 0 []).length) :
    ∃ res, bfsAux board.length ((board.getD 0 []).length) board
        (board.length * ((board.getD 0 []).length) + 1)
        (setG (mkGrid false board.length ((board.getD 0 []).length)) sr sc true)
        [(sr, sc)] = some res ∧
      findUnrevealed board (sr, sc) = res ∧
      (∀ c, res = some c →
        (getCell board c.1 c.2 = CellValue.E ∨
          getCell board c.1 c.2 = CellValue.M) ∧
        c ≠ (sr, sc) ∧ c.1 < board.length ∧ c.2 < (board.getD 0 []).length) ∧
      (res = none →
        ∀ p : Nat × Nat,
          Reachable board.length ((board.getD 0 []).length) (sr, sc) p →
          p = (sr, sc) ∨ ¬(getCell board p.1 p.2 = CellValue.E ∨
            getCell board p.1 p.2 = CellValue.M)) := by
  have hgrect := rect_mkGrid board.length ((board.getD 0 []).length)
    (α := Bool) false
  have hrect0 : Rect board.length ((board.getD 0 []).length)
      (setG (mkGrid false board.length ((board.getD 0 []).length)) sr sc true) :=
    rect_setG hgrect sr sc true
  have hself : getG (setG (mkGrid false board.length ((board.getD 0 []).length))
      sr sc true) sr sc false = true :=
    getG_setG_self hgrect hs1 hs2 true false
  have hchar : ∀ p : Nat × Nat,
      getG (setG (mkGrid false board.length ((board.getD 0 []).length))
        sr sc true) p.1 p.2 false = true → p = (sr, sc) := by
    intro p hp
    by_cases hpq : (p.1, p.2) = (sr, sc)
    · exact Prod.ext (congrArg Prod.fst hpq) (congrArg Prod.snd hpq)
    · rw [getG_setG_ne hpq] at hp
      rw [getG_mkGrid] at hp
      cases hp
  have hmeasure : ([((sr, sc) : Nat × Nat)]).length +
      countUnvisited (setG (mkGrid false board.length
        ((board.getD 0 []).length)) sr sc true) <
      board.length * ((board.getD 0 []).length) + 1 := by
    have h1 := countUnvisited_setG (mkGrid false board.length
      ((board.getD 0 []).length)) sr sc hgrect hs1 hs2
      (getG_mkGrid board.length ((board.getD 0 []).length) sr sc false)
    have h2 := countUnvisited_mkGrid board.length ((board.getD 0 []).length)
    simp only [List.length_cons, List.length_nil]
    omega
  have hbfs := bfs_spec board.length ((board.getD 0 []).length) board (sr, sc)
    (board.length * ((board.getD 0 []).length) + 1)
    (setG (mkGrid false board.length ((board.getD 0 []).length)) sr sc true)
    [(sr, sc)] hrect0 hmeasure
    (fun p hp => by
      have hpe : p = (sr, sc) := List.mem_singleton.1 hp
      subst hpe
      exact hself)
    (fun p hp => by
      have hpe : p = (sr, sc) := hchar p hp
      subst hpe
      exact ⟨hs1, hs2⟩)
    (fun p hp => Or.inl (hchar p hp))
    (fun p hp => Or.inl (by
      have hpe : p = (sr, sc) := hchar p hp
      subst hpe
      exact List.mem_singleton.2 rfl))
    hself
  obtain ⟨res, hres, hsome, hnone⟩ := hbfs
  refine ⟨res, hres, ?_, hsome, hnone⟩
  simp only [findUnrevealed, hres]

/-- C10: Connectivity search termination — for every rectangular board and
in-range reference cell, the fuelled BFS loop of `findUnrevealed` completes
(returns `some` result) within its fuel of (area + 1), so the function is
total. -/
theorem findUnrevealed_terminates (board : Board) (sr sc : Nat)
    (hs1 : sr < board.length) (hs2 : sc < (board.getD 0 []).length) :
    ∃ res, bfsAux board.length ((board.getD 0 []).length) board
        (board.length * ((board.getD 0 []).length) + 1)
        (setG (mkGrid false board.length ((board.getD 0 []).length)) sr sc true)
        [(sr, sc)] = some res ∧
      findUnrevealed board (sr, sc) = res := by
  obtain ⟨res, hres, hfind, _⟩ := findUnrevealed_spec board sr sc hs1 hs2
  exact ⟨res, hres, hfind⟩

/-- Witness for C10 on a 1×1 board. -/
theorem findUnrevealed_terminates_witness :
    ∃ res, bfsAux (List.length [[CellValue.E]])
        ((List.getD [[CellValue.E]] 0 []).length) [[CellValue.E]]
        (List.length [[CellValue.E]] *
          ((List.getD [[CellValue.E]] 0 []).length) + 1)
        (setG (mkGrid false (List.length [[CellValue.E]])
          ((List.getD [[CellValue.E]] 0 []).length)) 0 0 true)
        [(0, 0)] = some res ∧
      findUnrevealed [[CellValue.E]] (0, 0) = res :=
  findUnrevealed_terminates [[CellValue.E]] 0 0 (by decide) (by decide)

/-- C9: Connectivity search null on cleared board — if no in-range cell is
`'E'` or `'M'`, `findUnrevealed` returns `none`. -/
theorem findUnrevealed_cleared (board : Board) (sr sc : Nat)
    (hs1 : sr < board.length) (hs2 : sc < (board.getD 0 []).length)
    (hrev : ∀ r, r < board.length → ∀ c, c < (board.getD 0 []).length →
      getCell board r c ≠ CellValue.E ∧ getCell board r c ≠ CellValue.M) :
    findUnrevealed board (sr, sc) = none := by
  obtain ⟨res, _, hfind, hsome, _⟩ := findUnrevealed_spec board sr sc hs1 hs2
  cases res with
  | none => rw [hfind]
  | some c =>
    have h := hsome c rfl
    rcases h.1 with h1 | h1
    · exact absurd h1 (hrev c.1 h.2.2.1 c.2 h.2.2.2).1
    · exact absurd h1 (hrev c.1 h.2.2.1 c.2 h.2.2.2).2

/-- Witness for C9 on a fully revealed 1×1 board. -/
theorem findUnrevealed_cleared_witness :
    findUnrevealed [[CellValue.RE]] (0, 0) = none :=
  findUnrevealed_cleared [[CellValue.RE]] 0 0 (by decide) (by decide) (by decide)

/-- C7: `findUnrevealed` never returns the reference cell itself, and on the
1×1 board `[[E]]` (where the reference is the only unrevealed cell) it
returns `none`. -/
theorem findUnrevealed_ne_start :
    (∀ (board : Board) (sr sc : Nat) (q : Nat × Nat),
      sr < board.length → sc < (board.getD 0 []).length →
      findUnrevealed board (sr, sc) = some q → q ≠ (sr, sc)) ∧
    findUnrevealed [[CellValue.E]] (0, 0) = none := by
  constructor
  · intro board sr sc q hs1 hs2 hq
    obtain ⟨res, _, hfind, hsome, _⟩ := findUnrevealed_spec board sr sc hs1 hs2
    rw [hfind] at hq
    exact (hsome q hq).2.1
  · decide

/-- Witness for C7: on `[[RE, E]]` the search from `(0,0)` returns `(0,1)`,
which differs from the reference. -/
theorem findUnrevealed_ne_start_witness :
    findUnrevealed [[CellValue.RE, CellValue.E]] (0, 0) = some (0, 1) ∧
    ((0, 1) : Nat × Nat) ≠ (0, 0) ∧
    findUnrevealed [[CellValue.E]] (0, 0) = none :=
  ⟨by decide,
    findUnrevealed_ne_start.1 [[CellValue.RE, CellValue.E]] 0 0 (0, 1)
      (by decide) (by decide) (by decide),
    findUnrevealed_ne_start.2⟩

/-- Counterexample to C6 as stated: on the board `[[E]]` the reference cell
itself has value `'E'` and is (trivially) reachable from the reference over
the adjacency graph, yet `findUnrevealed` returns `null`. -/
theorem findUnrevealed_complete_counterexample :
    Reachable 1 1 (0, 0) (0, 0) ∧
    (getCell [[CellValue.E]] 0 0 = CellValue.E ∨
      getCell [[CellValue.E]] 0 0 = CellValue.M) ∧
    findUnrevealed [[CellValue.E]] (0, 0) = none :=
  ⟨Reachable.refl, Or.inl (by decide), by decide⟩

/-- C6 (amended): if some cell OTHER THAN the reference with value `'E'` or
`'M'` is reachable from the reference cell over the 8-directional adjacency
graph, then `findUnrevealed` returns a coordinate whose value is `'E'` or
`'M'`. -/
theorem findUnrevealed_complete (board : Board) (sr sc : Nat) (p : Nat × Nat)
    (hs1 : sr < board.length) (hs2 : sc < (board.getD 0 []).length)
    (hreach : Reachable board.length ((board.getD 0 []).length) (sr, sc) p)
    (hne : p ≠ (sr, sc))
    (hp : getCell board p.1 p.2 = CellValue.E ∨
      getCell board p.1 p.2 = CellValue.M) :
    ∃ q, findUnrevealed board (sr, sc) = some q ∧
      (getCell board q.1 q.2 = CellValue.E ∨
        getCell board q.1 q.2 = CellValue.M) := by
  obtain ⟨res, _, hfind, hsome, hnone⟩ := findUnrevealed_spec board sr sc hs1 hs2
  cases res with
  | none =>
    rcases hnone rfl p hreach with h1 | h1
    · exact absurd h1 hne
    · exact absurd hp h1
  | some c =>
    refine ⟨c, by rw [hfind], (hsome c rfl).1⟩

/-- Witness for C6 (amended) on `[[RE, E]]` with target `(0,1)`. -/
theorem findUnrevealed_complete_witness :
    ∃ q, findUnrevealed [[CellValue.RE, CellValue.E]] (0, 0) = some q ∧
      (getCell [[CellValue.RE, CellValue.E]] q.1 q.2 = CellValue.E ∨
        getCell [[CellValue.RE, CellValue.E]] q.1 q.2 = CellValue.M) :=
  findUnrevealed_complete [[CellValue.RE, CellValue.E]] 0 0 (0, 1)
    (by decide) (by decide)
    (Reachable.step Reachable.refl (by decide)) (by decide) (Or.inl (by decide))

end ConnectivitySearch
